import Mathlib

/-!
Verification of the scapegoat-tree implementation in `src/Tree.hpp`
(`DM852::Tree<Key, Value, Comp>`).

The embedding instantiates the template at `Key = Value = Nat` with
`Comp = (· < ·)` (the instantiation `Tree<int, …>` used by the repository's
test driver).  The pointer structure is modelled by the algebraic tree type
`BT`; parent pointers are not stored but are recovered from the search path,
which is valid because the implementation keeps every node's `parent` field
equal to its structural parent.  A `Tree` object's fields `root`, `tree_size`,
`max_size`, `first` and `last` become the record `TState` (the cached `first` /
`last` node pointers are modelled by the keys of the nodes they point to; node
identity is by key, which is unambiguous on trees whose in-order key sequence
is duplicate free).  `alpha` is the constant `0.57` fixed by both constructors;
comparisons of the form `x <= alpha * y` and `x < alpha * y` on integer
weights are modelled exactly as `100 * x ≤ 57 * y` and `100 * x < 57 * y`,
the real-arithmetic reading of the source's floating-point constant, and
`h_alpha = floor(log_{1/alpha}(tree_size))` is modelled as the exact
`⌊log_{100/57} n⌋`.  Null-pointer dereferences (undefined behaviour) are
modelled by `Option`: a function returns `none` where the C++ code would
dereference a null pointer.
-/

set_option maxRecDepth 20000

namespace DM852

/-- The node structure of `Tree.hpp`: each `Node` holds a `(key, value)` pair
and `left` / `right` children (`Tree::Node`, lines 23-143).  The `parent`
pointer is derived from the position of a node in the tree. -/
inductive BT where
  | leaf
  | node (l : BT) (k : Nat) (v : Nat) (r : BT)
deriving DecidableEq, Repr

namespace BT

/-- `node_size` (Tree.hpp lines 958-961): recursively counts the nodes of a
subtree. -/
def sizeT : BT → Nat
  | leaf => 0
  | node l _ _ r => sizeT l + sizeT r + 1

/-- The in-order list of `(key, value)` pairs of a subtree (what an exhaustive
in-order traversal of the pointer structure visits). -/
def inorderKV : BT → List (Nat × Nat)
  | leaf => []
  | node l k v r => inorderKV l ++ (k, v) :: inorderKV r

/-- The in-order key sequence. -/
def keys (t : BT) : List Nat := (inorderKV t).map Prod.fst

/-- `Tree::find` (lines 762-773): walk from the root; stop at a node whose key
equals the searched key, descending left when `comp(key, node.key)` and right
otherwise.  Returns the node's pair, or `none` for the past-the-end
iterator. -/
def findT : BT → Nat → Option (Nat × Nat)
  | leaf, _ => none
  | node l k' v' r, k =>
    if k = k' then some (k', v')
    else if k < k' then findT l k
    else findT r k

/-- The `while(res->left) res = res->left;` loop of `Node::next` (lines 39-42):
the leftmost node of a subtree. -/
def leftmostKV : BT → Option (Nat × Nat)
  | leaf => none
  | node leaf k v _ => some (k, v)
  | node l _ _ _ => leftmostKV l

/-- The `while(res->right) res = res->right;` loop of `Node::prev` (lines
81-84): the rightmost node of a subtree. -/
def rightmostKV : BT → Option (Nat × Nat)
  | leaf => none
  | node _ k v leaf => some (k, v)
  | node _ _ _ r => rightmostKV r

end BT

open BT

/-- Locates the node holding key `k` by binary search (the unique such node on
a duplicate-free search tree) and returns its subtree together with the stack
of its ancestors' pairs, nearest ancestor first.  This recovers the `parent`
chain that `Node::next` / `Node::prev` follow, since the implementation keeps
each node's `parent` field equal to its structural parent. -/
def searchAnc : BT → Nat → List (Nat × Nat) → Option (BT × List (Nat × Nat))
  | .leaf, _, _ => none
  | .node l k' v' r, k, anc =>
    if k = k' then some (.node l k' v' r, anc)
    else if k < k' then searchAnc l k ((k', v') :: anc)
    else searchAnc r k ((k', v') :: anc)

/-- `Tree::Node::next` (lines 37-50), the successor operation used by
`iterator::operator++`: if the node has a right child, the leftmost node of
the right subtree; otherwise, if the parent exists and `key < parent.key`,
the parent; otherwise, if the grandparent exists and
`parent.key < grandparent.key`, the grandparent; otherwise null.  (Note: the
source climbs at most two levels of parents.) -/
def nextKV (t : BT) (k : Nat) : Option (Nat × Nat) :=
  match searchAnc t k [] with
  | none => none
  | some (.leaf, _) => none
  | some (.node _ _ _ r, anc) =>
    match r with
    | .node _ _ _ _ => leftmostKV r
    | .leaf =>
      match anc with
      | [] => none
      | (pk, pv) :: rest =>
        if k < pk then some (pk, pv)
        else
          match rest with
          | [] => none
          | (gk, gv) :: _ => if pk < gk then some (gk, gv) else none

/-- `Tree::Node::prev` (lines 79-93), symmetric to `next`. -/
def prevKV (t : BT) (k : Nat) : Option (Nat × Nat) :=
  match searchAnc t k [] with
  | none => none
  | some (.leaf, _) => none
  | some (.node l _ _ _, anc) =>
    match l with
    | .node _ _ _ _ => rightmostKV l
    | .leaf =>
      match anc with
      | [] => none
      | (pk, pv) :: rest =>
        if pk < k then some (pk, pv)
        else
          match rest with
          | [] => none
          | (gk, gv) :: _ => if gk < pk then some (gk, gv) else none

/-- `Tree::flatten` composed with the `flatten_wrapper` clean-up (lines
1002-1027): the right-threaded chain of all nodes of the subtree in ascending
key order, with the chain `y` appended after the last node.  The chain is
represented by the list of the pairs carried by its nodes (`flatten_wrapper`
nulls the `left` and `parent` pointers, so the pairs are all the information a
chain node carries). -/
def flattenKV : BT → List (Nat × Nat) → List (Nat × Nat)
  | .leaf, y => y
  | .node l k v r, y => flattenKV l ((k, v) :: flattenKV r y)

/-- `Tree::build` (lines 974-989): builds an `n`-node tree from the front of a
chain, consuming `ceil((n-1)/2)` nodes for the left subtree, one node for the
root and `floor((n-1)/2)` nodes for the right subtree (for `n : Nat`,
`ceil((n-1)/2) = n / 2` and `floor((n-1)/2) = (n-1) / 2`).  Returns the built
tree together with the unconsumed remainder of the chain, whose first node
plays the role of the node `s` returned by the source (`build(n, x)` returns
`s` with `s.left` the built tree; the caller takes `->left` and discards `s`).
The extra `fuel` argument only makes the recursion structural; it is
immaterial whenever `n ≤ fuel`. -/
def buildAux : Nat → Nat → List (Nat × Nat) → BT × List (Nat × Nat)
  | _, 0, l => (.leaf, l)
  | 0, _ + 1, l => (.leaf, l)
  | fuel + 1, n + 1, l =>
    let p := buildAux fuel ((n + 1) / 2) l
    match p.2 with
    | [] => (.leaf, [])
    | kv :: rest =>
      let q := buildAux fuel (n / 2) rest
      (.node p.1 kv.1 kv.2 q.1, q.2)

/-- `build(n, flatten_wrapper(t, w))->left`: rebuilds `t` as a balanced tree
of its first `n` in-order nodes.  `n` is passed separately because the erase
path (line 856) uses the `tree_size` field as the count while the insert path
(lines 636-650) uses a freshly computed `node_size`. -/
def rebuildWith (n : Nat) (t : BT) : BT :=
  (buildAux n n (flattenKV t [])).1

/-- The subtree rebuild performed on a scapegoat node during insert
(lines 639-659): `flatten` then `build` with `n = node_size(scn)`. -/
def rebuildSelf (t : BT) : BT :=
  rebuildWith (sizeT t) t

/-- `floor(log_{1/alpha}(n))` for `alpha = 0.57` (`Tree::h_alpha`, lines
945-948), computed exactly: the number of exponents `e ∈ [1, n]` with
`(100/57)^e ≤ n`, which is `⌊log_{100/57} n⌋` for `n ≥ 1`. -/
def h_alpha (n : Nat) : Nat :=
  ((List.range n).filter (fun e => 100 ^ (e + 1) ≤ n * 57 ^ (e + 1))).length

/-- The negation of the balance check of the scapegoat search (line 638):
`!(node_size(left) ≤ alpha*node_size(x) && node_size(right) ≤ alpha*node_size(x))`
with `alpha = 0.57` read exactly. -/
def isUnbal : BT → Bool
  | .leaf => false
  | .node l _ _ r =>
    let n := sizeT l + sizeT r + 1
    !(decide (100 * sizeT l ≤ 57 * n) && decide (100 * sizeT r ≤ 57 * n))

/-- The alpha-weight-balance predicate of the specification, checked at every
node: `weight(left(x)) ≤ alpha * weight(x)` and
`weight(right(x)) ≤ alpha * weight(x)` with `alpha = 0.57` read exactly. -/
def balancedAllB : BT → Bool
  | .leaf => true
  | .node l _ _ r =>
    decide (100 * sizeT l ≤ 57 * (sizeT l + sizeT r + 1)) &&
    decide (100 * sizeT r ≤ 57 * (sizeT l + sizeT r + 1)) &&
    balancedAllB l && balancedAllB r

/-- The scapegoat search of `Tree::insert` (lines 632-662): starting from the
new node, walk the `parent` chain; at the first ancestor `scn` failing the
balance check, rebuild the subtree rooted at `scn` in place (the rebuilt
subtree is re-attached on the same side of `scn`'s parent, since all its keys
lie on that side) and stop.  `path` is the list of directions (`true` =
right) from the root of `t` to the new node; the recursion checks the deepest
ancestor first, exactly like the bottom-up pointer walk. -/
def sgFind : BT → List Bool → Option BT
  | _, [] => none
  | .leaf, _ :: _ => none
  | .node l k v r, d :: rest =>
    match (match d with
           | true => (sgFind r rest).map (fun s => BT.node l k v s)
           | false => (sgFind l rest).map (fun s => BT.node s k v r)) with
    | some t₂ => some t₂
    | none =>
      if isUnbal (.node l k v r) then some (rebuildSelf (.node l k v r)) else none

/-- The result of the search-and-attach loop of `Tree::insert` (lines
585-621): the updated tree; the boolean result (`res_bool` for the
duplicate-key branch, `true` for a fresh insertion); and, for a fresh
insertion, the direction path from the root to the new node (`none` when an
equal key was found).  The path length is the `depth` counter, and the
`left_most` / `right_most` flags are "no step went right / left". -/
def insWalk : BT → Nat → Nat → BT × Bool × Option (List Bool)
  | .leaf, k, v => (.node .leaf k v .leaf, true, some [])
  | .node l k' v' r, k, v =>
    if k < k' then
      let w := insWalk l k v
      (.node w.1 k' v' r, w.2.1, w.2.2.map (false :: ·))
    else if k' < k then
      let w := insWalk r k v
      (.node l k' v' w.1, w.2.1, w.2.2.map (true :: ·))
    else
      if v' = v then (.node l k' v' r, false, none)
      else (.node l k' v r, true, none)

/-- The `Tree` object: `root`, `tree_size`, `max_size` and the cached `first` /
`last` pointers (modelled by the keys of the pointed-to nodes).  `alpha` is
the constant `0.57` and `comp` the `Nat` order. -/
structure TState where
  root : BT
  tree_size : Nat
  max_size : Nat
  firstK : Option Nat
  lastK : Option Nat
deriving DecidableEq, Repr

/-- The default-constructed tree (lines 412-417). -/
def emptyS : TState := ⟨.leaf, 0, 0, none, none⟩

/-- `Tree::insert(const Key&, const Value&)` (lines 585-665).  After the
search-and-attach walk: on the duplicate branch return immediately; otherwise
bump `tree_size`, raise `max_size`, update `first` / `last` if the new node is
an extreme, and if the new node is too deep (`depth > h_alpha()` and
`tree_size > 2`) run the scapegoat search; a successful rebuild resets
`max_size = tree_size`. -/
def insertS (s : TState) (k v : Nat) : TState × Bool :=
  let w := insWalk s.root k v
  match w.2.2 with
  | none => ({ s with root := w.1 }, w.2.1)
  | some p =>
    let size' := s.tree_size + 1
    let fK := if p.all (fun d => !d) then some k else s.firstK
    let lK := if p.all (fun d => d) then some k else s.lastK
    let rebuilt := if p.length > h_alpha size' ∧ size' > 2 then sgFind w.1 p else none
    match rebuilt with
    | some t₂ => ({ root := t₂, tree_size := size', max_size := size', firstK := fK, lastK := lK }, true)
    | none =>
      ({ root := w.1, tree_size := size', max_size := max s.max_size size',
         firstK := fK, lastK := lK }, true)

/-- `delete` of the leftmost node of a subtree: the detachment that
`subtree_shift(y, y->right)` performs on the successor `y` in the two-children
case of `Tree::erase` (lines 838-846). -/
def delMin : BT → BT
  | .leaf => .leaf
  | .node .leaf _ _ r => r
  | .node l k v r => .node (delMin l) k v r

/-- The structural effect of `Tree::erase(const_iterator)` (lines 827-850) at
the node holding `k` (located by key, as `erase(const Key&)` does via `find`):
no left child — replace the node by its right child; no right child — replace
it by its left child; otherwise replace it by its successor `y` (the leftmost
node of the right subtree), detaching `y` first. -/
def delFound : BT → Nat → BT
  | .leaf, _ => .leaf
  | .node l k' v' r, k =>
    if k < k' then .node (delFound l k) k' v' r
    else if k' < k then .node l k' v' (delFound r k)
    else
      match l, r with
      | .leaf, _ => r
      | _, .leaf => l
      | _, _ =>
        match leftmostKV r with
        | some sp => .node l sp.1 sp.2 (delMin r)
        | none => .leaf

/-- `Tree::erase(const_iterator)` (lines 827-861) on the position of the node
holding `k`, which must be a valid position: update `first` / `last` via
`next()` / `prev()` before detaching, remove the node, decrement `tree_size`,
and if `tree_size < alpha * max_size` rebuild the whole tree from the root
with `n = tree_size` and reset `max_size`. -/
def erasePresent (s : TState) (k : Nat) : TState :=
  let fK := if s.firstK = some k then (nextKV s.root k).map Prod.fst else s.firstK
  let lK := if s.lastK = some k then (prevKV s.root k).map Prod.fst else s.lastK
  let t' := delFound s.root k
  let ts' := s.tree_size - 1
  if 100 * ts' < 57 * s.max_size then
    { root := rebuildWith ts' t', tree_size := ts', max_size := ts', firstK := fK, lastK := lK }
  else
    { root := t', tree_size := ts', max_size := s.max_size, firstK := fK, lastK := lK }

/-- `Tree::erase(const Key&)` (lines 816-819): `erase(find(key))`.  When the
key is absent, `find` returns the past-the-end iterator whose node pointer is
null, and `erase(const_iterator)` unconditionally dereferences it
(`node->left` at line 833, or `node->next()` at line 830 on an empty tree);
this undefined behaviour is modelled by `none`. -/
def eraseKeyS (s : TState) (k : Nat) : Option TState :=
  match findT s.root k with
  | none => none
  | some _ => some (erasePresent s k)

/-- In-order iteration as the test driver performs it: start at `begin()`
(the cached `first` node, or past-the-end when the tree is empty) and apply
`iterator::operator++`, i.e. `Node::next`, until past-the-end.  `fuel` bounds
the number of visited nodes. -/
def iterFrom (t : BT) : Nat → Option Nat → List Nat
  | 0, _ => []
  | _, none => []
  | fuel + 1, some k => k :: iterFrom t fuel ((nextKV t k).map Prod.fst)

/-- The key sequence visited by iterating from `begin()` to `end()`. -/
def traversalKeys (s : TState) : List Nat :=
  iterFrom s.root s.tree_size (if s.tree_size = 0 then none else s.firstK)

/-- The pair stored at the node holding `k` together with its parent's pair
(`none` for the root), as read off the pointer structure. -/
def nodeInfo (t : BT) (k : Nat) : Option ((Nat × Nat) × Option (Nat × Nat)) :=
  match searchAnc t k [] with
  | none => none
  | some (.leaf, _) => none
  | some (.node _ k' v' _, anc) => some ((k', v'), anc.head?)

/-- The comparison loop of `Tree::operator==` (lines 538-554): `tmp` iterates
over this tree and `n` over `other`; the loop is driven by `n` reaching
`other.end()`.  Each step checks XOR of parent existence, equality of the
parents' pairs, and equality of the nodes' pairs.  Dereferencing `tmp` when it
is already past-the-end is undefined behaviour (`none`). -/
def treeEqLoop (t₁ t₂ : BT) : Nat → Option Nat → Option Nat → Option Bool
  | _, _, none => some true
  | 0, _, some _ => none
  | fuel + 1, p₁, some k₂ =>
    match p₁ with
    | none => none
    | some k₁ =>
      match nodeInfo t₁ k₁, nodeInfo t₂ k₂ with
      | some (pr₁, pp₁), some (pr₂, pp₂) =>
        if (pp₁.isSome || pp₂.isSome) && (!pp₁.isSome || !pp₂.isSome) then some false
        else if pp₁.isSome && !decide (pp₁ = pp₂) then some false
        else if pr₁ ≠ pr₂ then some false
        else treeEqLoop t₁ t₂ fuel ((nextKV t₁ k₁).map Prod.fst) ((nextKV t₂ k₂).map Prod.fst)
      | _, _ => none

/-- `Tree::operator==` (lines 538-554): sizes must agree, then the in-order
comparison loop runs over both trees. -/
def treeEqS (s₁ s₂ : TState) : Option Bool :=
  if s₁.tree_size ≠ s₂.tree_size then some false
  else
    treeEqLoop s₁.root s₂.root (s₂.tree_size + 1)
      (if s₁.tree_size = 0 then none else s₁.firstK)
      (if s₂.tree_size = 0 then none else s₂.firstK)

/-- `Tree::copy_helper` (lines 1056-1071): depth-first copy of every node.  In
the value model a deep copy is the same tree. -/
def copy_helper : BT → BT
  | .leaf => .leaf
  | .node l k v r => .node (copy_helper l) k v (copy_helper r)

/-- The copy constructor `Tree(const Tree&)` (lines 439-452) and the copy
assignment `operator=(const Tree&)` (lines 464-483), which share the same
logic: copy the fields, deep-copy the nodes when the source root is non-null,
then recompute `first` and `last` by walking `root->left` / `root->right` —
the walk dereferences `root` unconditionally, so a null root (empty source
tree) is a null-pointer dereference, modelled by `none`. -/
def copyS (s : TState) : Option TState :=
  match copy_helper s.root with
  | .leaf => none
  | .node l k v r =>
    some { root := .node l k v r, tree_size := s.tree_size, max_size := s.max_size,
           firstK := (leftmostKV (.node l k v r)).map Prod.fst,
           lastK := (rightmostKV (.node l k v r)).map Prod.fst }

/-- Fold a list of `(key, value)` insertions over a state. -/
def insertPairs (s : TState) (l : List (Nat × Nat)) : TState :=
  l.foldl (fun s p => (insertS s p.1 p.2).1) s

/-- Fold a list of key insertions (all with value `0`) over a state. -/
def insertKeys (s : TState) (l : List Nat) : TState :=
  insertPairs s (l.map (fun k => (k, 0)))

/-- States reachable from the default-constructed tree by `insert` and
(completing, i.e. not undefined-behaviour) `erase` calls. -/
inductive Reachable : TState → Prop
  | init : Reachable emptyS
  | ins (s : TState) (k v : Nat) (s₂ : TState) (b : Bool) :
      Reachable s → insertS s k v = (s₂, b) → Reachable s₂
  | del (s : TState) (k : Nat) (s₂ : TState) :
      Reachable s → eraseKeyS s k = some s₂ → Reachable s₂

/-- The representation invariant tying the `tree_size` field to the node
structure, together with the order invariant. -/
def Inv (s : TState) : Prop :=
  List.Pairwise (· < ·) (keys s.root) ∧ s.tree_size = sizeT s.root

/-- Whether a leaf depth list helper: the depths (root = depth 0) of all
leaves of a tree. -/
def leafDepths : BT → List Nat
  | .leaf => []
  | .node .leaf _ _ .leaf => [0]
  | .node l _ _ r => ((leafDepths l).map (· + 1)) ++ ((leafDepths r).map (· + 1))

/-- The list-level effect of the search-and-attach walk of `Tree::insert` on
the in-order association list: insert `(k, v)` at its sorted position, or
replace the value at an existing key. -/
def listInsert : List (Nat × Nat) → Nat → Nat → List (Nat × Nat)
  | [], k, v => [(k, v)]
  | (k', v') :: rest, k, v =>
    if k < k' then (k, v) :: (k', v') :: rest
    else if k' < k then (k', v') :: listInsert rest k v
    else (k', v) :: rest

/-- The list-level effect of `Tree::erase` on the in-order association list:
remove the first pair with key `k`. -/
def listErase : List (Nat × Nat) → Nat → List (Nat × Nat)
  | [], _ => []
  | (k', v') :: rest, k => if k' = k then rest else (k', v') :: listErase rest k

/-- Lookup of the first pair with key `k` in an association list. -/
def listFind : List (Nat × Nat) → Nat → Option (Nat × Nat)
  | [], _ => none
  | (k', v') :: rest, k => if k' = k then some (k', v') else listFind rest k


/-! ### Association-list lemmas -/

theorem listFind_append_none {A B : List (Nat × Nat)} {k : Nat}
    (h : listFind A k = none) : listFind (A ++ B) k = listFind B k := by
  induction A with
  | nil => simp
  | cons p rest ih =>
    obtain ⟨k', v'⟩ := p
    simp only [listFind] at h
    by_cases hk : k' = k
    · simp [hk] at h
    · simp only [List.cons_append, listFind, if_neg hk] at h ⊢
      exact ih h

theorem listFind_append_some {A B : List (Nat × Nat)} {k : Nat} {p : Nat × Nat}
    (h : listFind A k = some p) : listFind (A ++ B) k = some p := by
  induction A with
  | nil => simp [listFind] at h
  | cons q rest ih =>
    obtain ⟨k', v'⟩ := q
    simp only [listFind] at h
    by_cases hk : k' = k
    · rw [if_pos hk] at h
      simp only [List.cons_append, listFind, if_pos hk]
      exact h
    · simp only [if_neg hk] at h
      simp only [List.cons_append, listFind, if_neg hk]
      exact ih h

theorem listFind_eq_none {L : List (Nat × Nat)} {k : Nat}
    (h : ∀ p ∈ L, p.1 ≠ k) : listFind L k = none := by
  induction L with
  | nil => rfl
  | cons q rest ih =>
    obtain ⟨k', v'⟩ := q
    have hk : k' ≠ k := h (k', v') (by simp)
    simp only [listFind, if_neg hk]
    exact ih fun p hp => h p (by simp [hp])

theorem listFind_mem {L : List (Nat × Nat)} {k : Nat} {p : Nat × Nat}
    (h : listFind L k = some p) : p ∈ L ∧ p.1 = k := by
  induction L with
  | nil => simp [listFind] at h
  | cons q rest ih =>
    obtain ⟨k', v'⟩ := q
    simp only [listFind] at h
    by_cases hk : k' = k
    · simp only [if_pos hk, Option.some.injEq] at h
      subst h
      exact ⟨by simp, hk⟩
    · simp only [if_neg hk] at h
      obtain ⟨h1, h2⟩ := ih h
      exact ⟨by simp [h1], h2⟩

theorem listInsert_append_lt {k k' v v' : Nat} (hlt : k < k') :
    ∀ (A B : List (Nat × Nat)),
      listInsert (A ++ (k', v') :: B) k v = listInsert A k v ++ (k', v') :: B := by
  intro A B
  induction A with
  | nil => simp [listInsert, if_pos hlt]
  | cons q rest ih =>
    obtain ⟨a, b⟩ := q
    simp only [List.cons_append, listInsert]
    by_cases h1 : k < a
    · simp [if_pos h1]
    · by_cases h2 : a < k
      · simp [if_neg h1, if_pos h2, ih]
      · simp [if_neg h1, if_neg h2]

theorem listInsert_append_gt {k k' v v' : Nat} {A B : List (Nat × Nat)}
    (hgt : k' < k) (hA : ∀ p ∈ A, p.1 < k) :
    listInsert (A ++ (k', v') :: B) k v = A ++ (k', v') :: listInsert B k v := by
  induction A with
  | nil =>
    have h1 : ¬ k < k' := by omega
    simp [listInsert, if_neg h1, if_pos hgt]
  | cons q rest ih =>
    obtain ⟨a, b⟩ := q
    have ha : a < k := hA (a, b) (by simp)
    have h1 : ¬ k < a := by omega
    simp only [List.cons_append, listInsert, if_neg h1, if_pos ha, List.append_eq]
    rw [ih fun p hp => hA p (by simp [hp])]

theorem listInsert_append_eq {k v v' : Nat} {A B : List (Nat × Nat)}
    (hA : ∀ p ∈ A, p.1 < k) :
    listInsert (A ++ (k, v') :: B) k v = A ++ (k, v) :: B := by
  induction A with
  | nil => simp [listInsert]
  | cons q rest ih =>
    obtain ⟨a, b⟩ := q
    have ha : a < k := hA (a, b) (by simp)
    have h1 : ¬ k < a := by omega
    simp only [List.cons_append, listInsert, if_neg h1, if_pos ha, List.append_eq]
    rw [ih fun p hp => hA p (by simp [hp])]

theorem listFind_listInsert (L : List (Nat × Nat)) (k v : Nat) :
    listFind (listInsert L k v) k = some (k, v) := by
  induction L with
  | nil => simp [listInsert, listFind]
  | cons q rest ih =>
    obtain ⟨a, b⟩ := q
    simp only [listInsert]
    by_cases h1 : k < a
    · simp [if_pos h1, listFind]
    · by_cases h2 : a < k
      · have hne : a ≠ k := by omega
        simp [if_neg h1, if_pos h2, listFind, hne, ih]
      · have heq : a = k := by omega
        simp [if_neg h1, if_neg h2, listFind, heq]

theorem mem_keys_listInsert {L : List (Nat × Nat)} {k v a : Nat}
    (h : a ∈ (listInsert L k v).map Prod.fst) : a = k ∨ a ∈ L.map Prod.fst := by
  induction L with
  | nil => simp [listInsert] at h; exact Or.inl h
  | cons q rest ih =>
    obtain ⟨a', b'⟩ := q
    simp only [listInsert] at h
    by_cases h1 : k < a'
    · simp only [if_pos h1, List.map_cons, List.mem_cons] at h
      rcases h with h | h | h
      · exact Or.inl h
      · exact Or.inr (by simp [h])
      · exact Or.inr (by simp [h])
    · by_cases h2 : a' < k
      · simp only [if_neg h1, if_pos h2, List.map_cons, List.mem_cons] at h
        rcases h with h | h
        · exact Or.inr (by simp [h])
        · rcases ih h with h | h
          · exact Or.inl h
          · exact Or.inr (by simp [h])
      · simp only [if_neg h1, if_neg h2, List.map_cons, List.mem_cons] at h
        rcases h with h | h
        · exact Or.inl (by omega)
        · exact Or.inr (by simp [h])

theorem listInsert_sorted {L : List (Nat × Nat)} {k v : Nat}
    (h : List.Pairwise (· < ·) (L.map Prod.fst)) :
    List.Pairwise (· < ·) ((listInsert L k v).map Prod.fst) := by
  induction L with
  | nil => simp [listInsert]
  | cons q rest ih =>
    obtain ⟨a, b⟩ := q
    simp only [List.map_cons, List.pairwise_cons] at h
    obtain ⟨ha, hrest⟩ := h
    simp only [listInsert]
    by_cases h1 : k < a
    · simp only [if_pos h1, List.map_cons, List.pairwise_cons]
      refine ⟨?_, ha, hrest⟩
      intro x hx
      simp only [List.mem_cons] at hx
      rcases hx with rfl | hx
      · exact h1
      · exact lt_trans h1 (ha x hx)
    · by_cases h2 : a < k
      · simp only [if_neg h1, if_pos h2, List.map_cons, List.pairwise_cons]
        refine ⟨?_, ih hrest⟩
        intro x hx
        rcases mem_keys_listInsert hx with rfl | hx
        · exact h2
        · exact ha x hx
      · have heq : a = k := by omega
        subst heq
        simp only [if_neg h1, if_neg h2, List.map_cons, List.pairwise_cons]
        exact ⟨ha, hrest⟩

theorem listInsert_length_not_mem {L : List (Nat × Nat)} {k v : Nat}
    (h : k ∉ L.map Prod.fst) : (listInsert L k v).length = L.length + 1 := by
  induction L with
  | nil => rfl
  | cons q rest ih =>
    obtain ⟨a, b⟩ := q
    simp only [List.map_cons, List.mem_cons] at h
    push_neg at h
    obtain ⟨hka, hrest⟩ := h
    simp only [listInsert]
    by_cases h1 : k < a
    · simp [if_pos h1]
    · have h2 : a < k := by omega
      simp [if_neg h1, if_pos h2, ih hrest]

theorem listInsert_keys_mem {L : List (Nat × Nat)} {k v : Nat}
    (hs : List.Pairwise (· < ·) (L.map Prod.fst)) (h : k ∈ L.map Prod.fst) :
    (listInsert L k v).map Prod.fst = L.map Prod.fst := by
  induction L with
  | nil => simp at h
  | cons q rest ih =>
    obtain ⟨a, b⟩ := q
    simp only [List.map_cons, List.pairwise_cons] at hs
    obtain ⟨ha, hrest⟩ := hs
    simp only [List.map_cons, List.mem_cons] at h
    simp only [listInsert]
    by_cases h1 : k < a
    · exfalso
      rcases h with rfl | h
      · omega
      · have := ha k h; omega
    · by_cases h2 : a < k
      · have hk : k ∈ rest.map Prod.fst := by
          rcases h with rfl | h
          · omega
          · exact h
        simp [if_neg h1, if_pos h2, ih hrest hk]
      · simp [if_neg h1, if_neg h2]

theorem listErase_sublist (L : List (Nat × Nat)) (k : Nat) :
    (listErase L k).Sublist L := by
  induction L with
  | nil => simp [listErase]
  | cons q rest ih =>
    obtain ⟨a, b⟩ := q
    simp only [listErase]
    by_cases h1 : a = k
    · simp [if_pos h1]
    · simp only [if_neg h1]
      exact ih.cons₂ (a, b)

theorem listErase_length {L : List (Nat × Nat)} {k : Nat}
    (h : k ∈ L.map Prod.fst) : (listErase L k).length + 1 = L.length := by
  induction L with
  | nil => simp at h
  | cons q rest ih =>
    obtain ⟨a, b⟩ := q
    simp only [List.map_cons, List.mem_cons] at h
    simp only [listErase]
    by_cases h1 : a = k
    · simp [if_pos h1]
    · have hk : k ∈ rest.map Prod.fst := by
        rcases h with rfl | h
        · omega
        · exact h
      simp [if_neg h1, ih hk]

theorem listFind_listErase {L : List (Nat × Nat)} {k : Nat}
    (hs : List.Pairwise (· < ·) (L.map Prod.fst)) :
    listFind (listErase L k) k = none := by
  induction L with
  | nil => rfl
  | cons q rest ih =>
    obtain ⟨a, b⟩ := q
    simp only [List.map_cons, List.pairwise_cons] at hs
    obtain ⟨ha, hrest⟩ := hs
    simp only [listErase]
    by_cases h1 : a = k
    · subst h1
      rw [if_pos rfl]
      exact listFind_eq_none fun p hp => by
        have := ha p.1 (List.mem_map_of_mem Prod.fst hp)
        omega
    · simp only [if_neg h1, listFind, if_neg h1]
      exact ih hrest

/-! ### Basic tree lemmas -/

theorem sizeT_eq_length (t : BT) : sizeT t = (inorderKV t).length := by
  induction t with
  | leaf => rfl
  | node l k v r ihl ihr => simp [sizeT, inorderKV, ihl, ihr]; omega

theorem inorderKV_eq_nil {t : BT} (h : inorderKV t = []) : t = .leaf := by
  cases t with
  | leaf => rfl
  | node l k v r => simp [inorderKV] at h

theorem keys_node (l : BT) (k v : Nat) (r : BT) :
    keys (.node l k v r) = keys l ++ k :: keys r := by
  simp [keys, inorderKV]

theorem flattenKV_eq (t : BT) : ∀ y, flattenKV t y = inorderKV t ++ y := by
  induction t with
  | leaf => intro y; rfl
  | node l k v r ihl ihr =>
    intro y
    simp [flattenKV, inorderKV, ihl, ihr]

/-! ### The rebuild routine: `flatten` + `build` -/

theorem buildAux_spec :
    ∀ (fuel n : Nat) (l : List (Nat × Nat)), n ≤ fuel → n ≤ l.length →
      inorderKV (buildAux fuel n l).1 = l.take n ∧ (buildAux fuel n l).2 = l.drop n := by
  intro fuel
  induction fuel with
  | zero =>
    intro n l hf _
    interval_cases n
    simp [buildAux, inorderKV]
  | succ fuel ih =>
    intro n l hf hl
    match n with
    | 0 => simp [buildAux, inorderKV]
    | m + 1 =>
      have hle1 : (m + 1) / 2 ≤ fuel := by omega
      have hle2 : (m + 1) / 2 ≤ l.length := by omega
      obtain ⟨hin1, hdr1⟩ := ih ((m + 1) / 2) l hle1 hle2
      have hlen : (l.drop ((m + 1) / 2)).length = l.length - (m + 1) / 2 := by
        simp
      have hne : l.drop ((m + 1) / 2) ≠ [] := by
        intro hcon
        rw [hcon] at hlen
        simp at hlen
        omega
      simp only [buildAux]
      rw [hdr1]
      match hd : l.drop ((m + 1) / 2) with
      | [] => exact absurd hd hne
      | kv :: rest =>
        have hrlen : rest.length = l.length - (m + 1) / 2 - 1 := by
          have := congrArg List.length hd
          simp at this
          omega
        have hle3 : m / 2 ≤ fuel := by omega
        have hle4 : m / 2 ≤ rest.length := by omega
        obtain ⟨hin2, hdr2⟩ := ih (m / 2) rest hle3 hle4
        simp only [inorderKV, hin1, hin2, hdr2]
        constructor
        · have h1 : l.take (m + 1) = l.take ((m + 1) / 2) ++ (kv :: rest).take (m + 1 - (m + 1) / 2) := by
            rw [← hd]
            rw [← List.take_add]
            congr 1
            omega
          rw [h1]
          have h2 : m + 1 - (m + 1) / 2 = m / 2 + 1 := by omega
          rw [h2]
          simp [List.take_cons]
        · have h1 : l.drop (m + 1) = (kv :: rest).drop (m + 1 - (m + 1) / 2) := by
            rw [← hd, List.drop_drop]
            congr 1
            omega
          have h2 : m + 1 - (m + 1) / 2 = m / 2 + 1 := by omega
          rw [h1, h2]
          simp [List.drop_succ_cons]

theorem buildAux_sizeT {fuel n : Nat} {l : List (Nat × Nat)}
    (hf : n ≤ fuel) (hl : n ≤ l.length) : sizeT (buildAux fuel n l).1 = n := by
  rw [sizeT_eq_length, (buildAux_spec fuel n l hf hl).1]
  simp [hl]

theorem rebuildWith_inorder {n : Nat} {t : BT} (h : (inorderKV t).length = n) :
    inorderKV (rebuildWith n t) = inorderKV t := by
  unfold rebuildWith
  rw [flattenKV_eq, List.append_nil]
  rw [(buildAux_spec n n (inorderKV t) le_rfl (by omega)).1]
  rw [← h]
  exact List.take_length _

theorem rebuildSelf_inorder (t : BT) : inorderKV (rebuildSelf t) = inorderKV t :=
  rebuildWith_inorder (sizeT_eq_length t).symm

theorem sizeT_eq_zero {t : BT} (h : sizeT t = 0) : t = .leaf := by
  cases t with
  | leaf => rfl
  | node l k v r => simp [sizeT] at h

theorem buildAux_balanced :
    ∀ (fuel n : Nat) (l : List (Nat × Nat)), n ≤ fuel → n ≤ l.length →
      balancedAllB (buildAux fuel n l).1 = true := by
  intro fuel
  induction fuel with
  | zero =>
    intro n l hf _
    interval_cases n
    simp [buildAux, balancedAllB]
  | succ fuel ih =>
    intro n l hf hl
    match n with
    | 0 => simp [buildAux, balancedAllB]
    | m + 1 =>
      have hle1 : (m + 1) / 2 ≤ fuel := by omega
      have hle2 : (m + 1) / 2 ≤ l.length := by omega
      have hdr1 := (buildAux_spec fuel ((m + 1) / 2) l hle1 hle2).2
      have hsz1 : sizeT (buildAux fuel ((m + 1) / 2) l).1 = (m + 1) / 2 :=
        buildAux_sizeT hle1 hle2
      have hb1 : balancedAllB (buildAux fuel ((m + 1) / 2) l).1 = true := ih _ l hle1 hle2
      have hne : l.drop ((m + 1) / 2) ≠ [] := by
        intro hcon
        have := congrArg List.length hcon
        simp at this
        omega
      simp only [buildAux]
      rw [hdr1]
      match hd : l.drop ((m + 1) / 2) with
      | [] => exact absurd hd hne
      | kv :: rest =>
        have hrlen : rest.length = l.length - (m + 1) / 2 - 1 := by
          have := congrArg List.length hd
          simp at this
          omega
        have hle3 : m / 2 ≤ fuel := by omega
        have hle4 : m / 2 ≤ rest.length := by omega
        have hsz2 : sizeT (buildAux fuel (m / 2) rest).1 = m / 2 :=
          buildAux_sizeT hle3 hle4
        have hb2 : balancedAllB (buildAux fuel (m / 2) rest).1 = true := ih _ rest hle3 hle4
        simp only [balancedAllB, hsz1, hsz2, hb1, hb2, Bool.and_true, Bool.and_eq_true,
          decide_eq_true_eq]
        omega

theorem log2_div_succ (m : Nat) (hm : 2 ≤ m) :
    Nat.log 2 m = Nat.log 2 (m / 2) + 1 := by
  have h1 : 0 < Nat.log 2 m := Nat.log_pos one_lt_two (by omega)
  have h2 := Nat.log_div_base 2 m
  omega

theorem buildAux_leafDepths :
    ∀ (fuel n : Nat) (l : List (Nat × Nat)), n ≤ fuel → n ≤ l.length →
      ∀ d ∈ leafDepths (buildAux fuel n l).1,
        d ≤ Nat.log 2 n ∧ Nat.log 2 (n + 1) ≤ d + 1 := by
  intro fuel
  induction fuel with
  | zero =>
    intro n l hf _
    interval_cases n
    simp [buildAux, leafDepths]
  | succ fuel ih =>
    intro n l hf hl
    match n with
    | 0 => simp [buildAux, leafDepths]
    | m + 1 =>
      have hle1 : (m + 1) / 2 ≤ fuel := by omega
      have hle2 : (m + 1) / 2 ≤ l.length := by omega
      have hsz1 : sizeT (buildAux fuel ((m + 1) / 2) l).1 = (m + 1) / 2 :=
        buildAux_sizeT hle1 hle2
      have hdr1 := (buildAux_spec fuel ((m + 1) / 2) l hle1 hle2).2
      have hne : l.drop ((m + 1) / 2) ≠ [] := by
        intro hcon
        have := congrArg List.length hcon
        simp at this
        omega
      simp only [buildAux]
      rw [hdr1]
      match hd : l.drop ((m + 1) / 2) with
      | [] => exact absurd hd hne
      | kv :: rest =>
        have hrlen : rest.length = l.length - (m + 1) / 2 - 1 := by
          have := congrArg List.length hd
          simp at this
          omega
        have hle3 : m / 2 ≤ fuel := by omega
        have hle4 : m / 2 ≤ rest.length := by omega
        have hsz2 : sizeT (buildAux fuel (m / 2) rest).1 = m / 2 :=
          buildAux_sizeT hle3 hle4
        match m with
        | 0 =>
          have h1 : (buildAux fuel ((0 + 1) / 2) l).1 = .leaf := by
            have : (0 + 1) / 2 = 0 := by omega
            rw [this]
            simp [buildAux]
          have h2 : (buildAux fuel (0 / 2) rest).1 = .leaf := by
            simp [buildAux]
          intro d hdm
          simp only [h1, h2, leafDepths, List.mem_singleton] at hdm
          subst hdm
          constructor
          · simp [Nat.log_one_right]
          · have : Nat.log 2 (0 + 1 + 1) = 1 :=
              Nat.log_eq_of_pow_le_of_lt_pow (by norm_num) (by norm_num)
            omega
        | mm + 1 =>
          have ha : 1 ≤ (mm + 1 + 1) / 2 := by omega
          intro d hdm
          have hlog1 : 0 < Nat.log 2 (mm + 1 + 1) := Nat.log_pos one_lt_two (by omega)
          have hlogdiv := Nat.log_div_base 2 (mm + 1 + 1)
          match hlt : (buildAux fuel ((mm + 1 + 1) / 2) l).1 with
          | .leaf => rw [hlt] at hsz1; simp [sizeT] at hsz1; omega
          | .node la lb lc ld =>
            rw [hlt] at hdm
            simp only [leafDepths, List.mem_append, List.mem_map] at hdm
            rcases hdm with ⟨d1, hd1, rfl⟩ | ⟨d1, hd1, rfl⟩
            · rw [← hlt] at hd1
              obtain ⟨hup, hlo⟩ := ih ((mm + 1 + 1) / 2) l hle1 hle2 d1 hd1
              constructor
              · omega
              · have e1 : Nat.log 2 ((mm + 3) / 2) ≤ Nat.log 2 ((mm + 1 + 1) / 2 + 1) :=
                  Nat.log_mono_right (by omega)
                have e2 : 0 < Nat.log 2 (mm + 3) := Nat.log_pos one_lt_two (by omega)
                have e3 := Nat.log_div_base 2 (mm + 3)
                have e4 : mm + 1 + 1 + 1 = mm + 3 := by omega
                rw [e4]
                omega
            · obtain ⟨hup, hlo⟩ := ih ((mm + 1) / 2) rest hle3 hle4 d1 hd1
              have e0 : Nat.log 2 ((mm + 1) / 2) ≤ Nat.log 2 ((mm + 1 + 1) / 2) :=
                Nat.log_mono_right (by omega)
              constructor
              · omega
              · have e1 : (mm + 3) / 2 = (mm + 1) / 2 + 1 := by omega
                have e2 : 0 < Nat.log 2 (mm + 3) := Nat.log_pos one_lt_two (by omega)
                have e3 := Nat.log_div_base 2 (mm + 3)
                rw [e1] at e3
                have e4 : mm + 1 + 1 + 1 = mm + 3 := by omega
                rw [e4]
                omega

/-! ### Sorted trees: find and insert -/

/-- Decomposition of the order invariant at a node. -/
theorem pairwise_keys_node {l : BT} {k v : Nat} {r : BT} :
    List.Pairwise (· < ·) (keys (.node l k v r)) ↔
      List.Pairwise (· < ·) (keys l) ∧ List.Pairwise (· < ·) (keys r) ∧
      (∀ a ∈ keys l, a < k) ∧ (∀ b ∈ keys r, k < b) := by
  rw [keys_node]
  rw [List.pairwise_append]
  simp only [List.pairwise_cons, List.mem_cons]
  constructor
  · rintro ⟨h1, ⟨h2, h3⟩, h4⟩
    exact ⟨h1, h3, fun a ha => h4 a ha k (Or.inl rfl), h2⟩
  · rintro ⟨h1, h2, h3, h4⟩
    refine ⟨h1, ⟨h4, h2⟩, ?_⟩
    intro a ha b hb
    rcases hb with rfl | hb
    · exact h3 a ha
    · exact lt_trans (h3 a ha) (h4 b hb)

theorem mem_keys_of_mem_inorder {t : BT} {p : Nat × Nat} (h : p ∈ inorderKV t) :
    p.1 ∈ keys t := List.mem_map_of_mem Prod.fst h

theorem findT_eq_listFind {t : BT} (hs : List.Pairwise (· < ·) (keys t)) (k : Nat) :
    findT t k = listFind (inorderKV t) k := by
  induction t with
  | leaf => rfl
  | node l k' v' r ihl ihr =>
    rw [pairwise_keys_node] at hs
    obtain ⟨hl, hr, hbl, hbr⟩ := hs
    have hfl_none_of : (k = k' ∨ k' < k) → listFind (inorderKV l) k = none := by
      intro hk
      exact listFind_eq_none fun p hp => by
        have := hbl p.1 (mem_keys_of_mem_inorder hp)
        omega
    simp only [findT, inorderKV]
    by_cases h0 : k = k'
    · subst h0
      rw [if_pos rfl]
      rw [listFind_append_none (hfl_none_of (Or.inl rfl))]
      simp [listFind]
    · rw [if_neg h0]
      by_cases h1 : k < k'
      · rw [if_pos h1, ihl hl]
        cases hfl : listFind (inorderKV l) k with
        | some p => rw [listFind_append_some hfl]
        | none =>
          rw [listFind_append_none hfl]
          have hk' : k' ≠ k := fun hc => h0 hc.symm
          simp only [listFind, if_neg hk']
          symm
          exact listFind_eq_none fun p hp => by
            have := hbr p.1 (mem_keys_of_mem_inorder hp)
            omega
      · have h2 : k' < k := by omega
        rw [if_neg h1, ihr hr]
        rw [listFind_append_none (hfl_none_of (Or.inr h2))]
        have hk' : k' ≠ k := fun hc => h0 hc.symm
        simp [listFind, if_neg hk']

theorem findT_key {t : BT} {k : Nat} {p : Nat × Nat} (h : findT t k = some p) :
    p.1 = k := by
  induction t with
  | leaf => simp [findT] at h
  | node l k' v' r ihl ihr =>
    simp only [findT] at h
    by_cases h0 : k = k'
    · simp only [if_pos h0, Option.some.injEq] at h
      rw [← h, h0]
    · rw [if_neg h0] at h
      by_cases h1 : k < k'
      · rw [if_pos h1] at h; exact ihl h
      · rw [if_neg h1] at h; exact ihr h

theorem listFind_ne_none_of_mem {L : List (Nat × Nat)} {p : Nat × Nat}
    (hp : p ∈ L) : listFind L p.1 ≠ none := by
  induction L with
  | nil => simp at hp
  | cons q rest ih =>
    obtain ⟨a, b⟩ := q
    simp only [listFind]
    by_cases h : a = p.1
    · simp [if_pos h]
    · rw [if_neg h]
      rcases List.mem_cons.mp hp with rfl | hp2
      · simp at h
      · exact ih hp2

theorem findT_some_key_mem {t : BT} {k : Nat} {p : Nat × Nat}
    (hs : List.Pairwise (· < ·) (keys t)) (h : findT t k = some p) : k ∈ keys t := by
  rw [findT_eq_listFind hs] at h
  obtain ⟨h1, h2⟩ := listFind_mem h
  rw [← h2]
  exact mem_keys_of_mem_inorder h1

theorem findT_none_not_mem {t : BT} {k : Nat}
    (hs : List.Pairwise (· < ·) (keys t)) (h : findT t k = none) : k ∉ keys t := by
  intro hmem
  simp only [keys, List.mem_map] at hmem
  obtain ⟨p, hp, hpk⟩ := hmem
  rw [findT_eq_listFind hs] at h
  rw [← hpk] at h
  exact listFind_ne_none_of_mem hp h

theorem insWalk_inorder {k v : Nat} {t : BT}
    (hs : List.Pairwise (· < ·) (keys t)) :
    inorderKV (insWalk t k v).1 = listInsert (inorderKV t) k v := by
  induction t with
  | leaf => simp [insWalk, inorderKV, listInsert]
  | node l k' v' r ihl ihr =>
    rw [pairwise_keys_node] at hs
    obtain ⟨hl, hr, hbl, hbr⟩ := hs
    simp only [insWalk]
    by_cases h1 : k < k'
    · simp only [if_pos h1, inorderKV]
      rw [ihl hl, listInsert_append_lt h1]
    · by_cases h2 : k' < k
      · simp only [if_neg h1, if_pos h2, inorderKV]
        rw [ihr hr, listInsert_append_gt h2]
        intro p hp
        have := hbl p.1 (mem_keys_of_mem_inorder hp)
        omega
      · have h0 : k = k' := by omega
        subst h0
        have hA : ∀ p ∈ inorderKV l, p.1 < k := fun p hp =>
          hbl p.1 (mem_keys_of_mem_inorder hp)
        by_cases h3 : v' = v
        · subst h3
          simp only [if_neg h1, if_neg h2, if_pos rfl, inorderKV]
          rw [listInsert_append_eq hA]
        · simp only [if_neg h1, if_neg h2, if_neg h3, inorderKV]
          rw [listInsert_append_eq hA]

theorem insWalk_dup {t : BT} {k w : Nat} (v : Nat) (h : findT t k = some (k, w)) :
    (insWalk t k v).2.1 = !decide (w = v) ∧ (insWalk t k v).2.2 = none := by
  induction t with
  | leaf => simp [findT] at h
  | node l k' v' r ihl ihr =>
    simp only [findT] at h
    simp only [insWalk]
    by_cases h0 : k = k'
    · rw [if_pos h0] at h
      have hk : ¬ k < k' := by omega
      have hk2 : ¬ k' < k := by omega
      have hvv : v' = w := congrArg Prod.snd (Option.some.inj h)
      subst hvv
      simp only [if_neg hk, if_neg hk2]
      by_cases h3 : v' = v
      · simp [if_pos h3, h3]
      · simp [if_neg h3, h3]
    · rw [if_neg h0] at h
      by_cases h1 : k < k'
      · rw [if_pos h1] at h
        obtain ⟨hb, hp⟩ := ihl h
        simp [if_pos h1, hb, hp]
      · rw [if_neg h1] at h
        have h2 : k' < k := by omega
        obtain ⟨hb, hp⟩ := ihr h
        simp [if_neg h1, if_pos h2, hb, hp]

theorem insWalk_dup_same {t : BT} {k v : Nat} (h : findT t k = some (k, v)) :
    insWalk t k v = (t, false, none) := by
  induction t with
  | leaf => simp [findT] at h
  | node l k' v' r ihl ihr =>
    simp only [findT] at h
    simp only [insWalk]
    by_cases h0 : k = k'
    · rw [if_pos h0] at h
      have hk : ¬ k < k' := by omega
      have hk2 : ¬ k' < k := by omega
      have hvv : v' = v := congrArg Prod.snd (Option.some.inj h)
      simp [if_neg hk, if_neg hk2, hvv]
    · rw [if_neg h0] at h
      by_cases h1 : k < k'
      · rw [if_pos h1] at h
        simp [if_pos h1, ihl h]
      · rw [if_neg h1] at h
        have h2 : k' < k := by omega
        simp [if_neg h1, if_pos h2, ihr h]

theorem insWalk_path_none_iff {k v : Nat} {t : BT}
    (hs : List.Pairwise (· < ·) (keys t)) :
    (insWalk t k v).2.2 = none ↔ k ∈ keys t := by
  induction t with
  | leaf => simp [insWalk, keys, inorderKV]
  | node l k' v' r ihl ihr =>
    rw [pairwise_keys_node] at hs
    obtain ⟨hl, hr, hbl, hbr⟩ := hs
    rw [keys_node]
    simp only [insWalk]
    by_cases h1 : k < k'
    · have hnr : k ∉ (k' :: keys r) := by
        intro hc
        rcases List.mem_cons.mp hc with rfl | hc
        · omega
        · have := hbr k hc; omega
      simp only [if_pos h1, Option.map_eq_none', List.mem_append, List.mem_cons]
      rw [ihl hl]
      constructor
      · exact Or.inl
      · rintro (hmem | rfl | hmem)
        · exact hmem
        · omega
        · have := hbr k hmem; omega
    · by_cases h2 : k' < k
      · simp only [if_neg h1, if_pos h2, Option.map_eq_none', List.mem_append, List.mem_cons]
        rw [ihr hr]
        constructor
        · intro hm; exact Or.inr (Or.inr hm)
        · rintro (hmem | rfl | hmem)
          · have := hbl k hmem; omega
          · omega
          · exact hmem
      · have h0 : k = k' := by omega
        subst h0
        by_cases h3 : v' = v
        · simp [if_neg h1, if_neg h2, if_pos h3]
        · simp [if_neg h1, if_neg h2, if_neg h3]

theorem sgFind_inorder :
    ∀ (p : List Bool) (t t₂ : BT), sgFind t p = some t₂ → inorderKV t₂ = inorderKV t := by
  intro p
  induction p with
  | nil => intro t t₂ h; simp [sgFind] at h
  | cons d rest ih =>
    intro t t₂ h
    cases t with
    | leaf => simp [sgFind] at h
    | node l k v r =>
      simp only [sgFind] at h
      cases d with
      | false =>
        cases hsub : (sgFind l rest).map (fun s => BT.node s k v r) with
        | some t3 =>
          rw [hsub] at h
          obtain ⟨sub, hsub2, rfl⟩ := Option.map_eq_some'.mp hsub
          have := ih l sub hsub2
          simp only [Option.some.injEq] at h
          subst h
          simp [inorderKV, this]
        | none =>
          rw [hsub] at h
          by_cases hu : isUnbal (.node l k v r) = true
          · rw [if_pos hu] at h
            simp only [Option.some.injEq] at h
            subst h
            exact rebuildSelf_inorder _
          · simp only [Bool.not_eq_true] at hu
            simp [hu] at h
      | true =>
        cases hsub : (sgFind r rest).map (fun s => BT.node l k v s) with
        | some t3 =>
          rw [hsub] at h
          obtain ⟨sub, hsub2, rfl⟩ := Option.map_eq_some'.mp hsub
          have := ih r sub hsub2
          simp only [Option.some.injEq] at h
          subst h
          simp [inorderKV, this]
        | none =>
          rw [hsub] at h
          by_cases hu : isUnbal (.node l k v r) = true
          · rw [if_pos hu] at h
            simp only [Option.some.injEq] at h
            subst h
            exact rebuildSelf_inorder _
          · simp only [Bool.not_eq_true] at hu
            simp [hu] at h

theorem keys_def (t : BT) : keys t = (inorderKV t).map Prod.fst := rfl

theorem insertS_eq_dup {s : TState} {k v : Nat}
    (h : (insWalk s.root k v).2.2 = none) :
    insertS s k v = ({ s with root := (insWalk s.root k v).1 }, (insWalk s.root k v).2.1) := by
  simp only [insertS]
  rw [h]

theorem insertS_eq_add {s : TState} {k v : Nat} {p : List Bool}
    (h : (insWalk s.root k v).2.2 = some p) :
    insertS s k v =
      (match (if p.length > h_alpha (s.tree_size + 1) ∧ s.tree_size + 1 > 2
              then sgFind (insWalk s.root k v).1 p else none) with
       | some t₂ =>
         ({ root := t₂, tree_size := s.tree_size + 1, max_size := s.tree_size + 1,
            firstK := if p.all (fun d => !d) then some k else s.firstK,
            lastK := if p.all (fun d => d) then some k else s.lastK }, true)
       | none =>
         ({ root := (insWalk s.root k v).1, tree_size := s.tree_size + 1,
            max_size := max s.max_size (s.tree_size + 1),
            firstK := if p.all (fun d => !d) then some k else s.firstK,
            lastK := if p.all (fun d => d) then some k else s.lastK }, true)) := by
  simp only [insertS]
  rw [h]

theorem insertS_add_facts {s : TState} {k v : Nat} {p : List Bool}
    (h : (insWalk s.root k v).2.2 = some p) :
    (insertS s k v).1.tree_size = s.tree_size + 1 ∧ (insertS s k v).2 = true ∧
    inorderKV ((insertS s k v).1.root) = inorderKV ((insWalk s.root k v).1) := by
  rw [insertS_eq_add h]
  rcases hco : (if p.length > h_alpha (s.tree_size + 1) ∧ s.tree_size + 1 > 2
                then sgFind (insWalk s.root k v).1 p else none) with _ | t₂
  · exact ⟨rfl, rfl, rfl⟩
  · have hsg : sgFind (insWalk s.root k v).1 p = some t₂ := by
      by_cases hc : p.length > h_alpha (s.tree_size + 1) ∧ s.tree_size + 1 > 2
      · rwa [if_pos hc] at hco
      · rw [if_neg hc] at hco; cases hco
    exact ⟨rfl, rfl, sgFind_inorder p _ t₂ hsg⟩

theorem insertS_root_inorder {s : TState} {k v : Nat}
    (hs : List.Pairwise (· < ·) (keys s.root)) :
    inorderKV ((insertS s k v).1.root) = listInsert (inorderKV s.root) k v := by
  cases hp : (insWalk s.root k v).2.2 with
  | none =>
    rw [insertS_eq_dup hp]
    exact insWalk_inorder hs
  | some p =>
    obtain ⟨_, _, h3⟩ := insertS_add_facts hp
    rw [h3]
    exact insWalk_inorder hs

theorem insertS_sorted {s : TState} {k v : Nat}
    (hs : List.Pairwise (· < ·) (keys s.root)) :
    List.Pairwise (· < ·) (keys ((insertS s k v).1.root)) := by
  rw [keys_def, insertS_root_inorder hs]
  exact listInsert_sorted hs

theorem insertS_find {s : TState} {k v : Nat}
    (hs : List.Pairwise (· < ·) (keys s.root)) :
    findT ((insertS s k v).1.root) k = some (k, v) := by
  rw [findT_eq_listFind (insertS_sorted hs), insertS_root_inorder hs,
    listFind_listInsert]

theorem insertS_dup_state {s : TState} {k v : Nat}
    (h : findT s.root k = some (k, v)) : insertS s k v = (s, false) := by
  have hw := insWalk_dup_same h
  simp only [insertS, hw]

theorem insertS_dup_general {s : TState} {k v w : Nat}
    (hs : List.Pairwise (· < ·) (keys s.root)) (h : findT s.root k = some (k, w)) :
    (insertS s k v).2 = !decide (w = v) ∧ (insertS s k v).1.tree_size = s.tree_size ∧
    keys ((insertS s k v).1.root) = keys s.root := by
  obtain ⟨hflag, hpath⟩ := insWalk_dup v h
  rw [insertS_eq_dup hpath]
  refine ⟨hflag, rfl, ?_⟩
  show keys (insWalk s.root k v).1 = keys s.root
  rw [keys_def, insWalk_inorder hs]
  exact listInsert_keys_mem hs (findT_some_key_mem hs h)

theorem insertS_Inv {s : TState} {k v : Nat} (h : Inv s) : Inv (insertS s k v).1 := by
  obtain ⟨hs, hsize⟩ := h
  refine ⟨insertS_sorted hs, ?_⟩
  cases hp : (insWalk s.root k v).2.2 with
  | none =>
    have hmem : k ∈ keys s.root := (insWalk_path_none_iff hs).mp hp
    rw [insertS_eq_dup hp]
    show s.tree_size = sizeT (insWalk s.root k v).1
    rw [sizeT_eq_length, insWalk_inorder hs]
    have hkeq := @listInsert_keys_mem (inorderKV s.root) k v hs hmem
    have : ((listInsert (inorderKV s.root) k v).map Prod.fst).length =
        ((inorderKV s.root).map Prod.fst).length := by rw [hkeq]
    simp only [List.length_map] at this
    rw [hsize, sizeT_eq_length]
    omega
  | some p =>
    obtain ⟨h1, _, h3⟩ := insertS_add_facts hp
    have hnmem : k ∉ (inorderKV s.root).map Prod.fst := by
      intro hc
      have h4 := (@insWalk_path_none_iff k v s.root hs).mpr hc
      rw [hp] at h4
      cases h4
    rw [h1, sizeT_eq_length, h3, insWalk_inorder hs, listInsert_length_not_mem hnmem,
      hsize, sizeT_eq_length]

/-! ### Erase -/

theorem listErase_not_mem {B : List (Nat × Nat)} {k : Nat}
    (h : ∀ p ∈ B, p.1 ≠ k) : listErase B k = B := by
  induction B with
  | nil => rfl
  | cons q rest ih =>
    obtain ⟨a, b⟩ := q
    have ha : a ≠ k := h (a, b) (by simp)
    simp only [listErase, if_neg ha]
    rw [ih fun p hp => h p (by simp [hp])]

theorem listErase_append_right {A B : List (Nat × Nat)} {k : Nat}
    (h : ∀ p ∈ A, p.1 ≠ k) : listErase (A ++ B) k = A ++ listErase B k := by
  induction A with
  | nil => simp
  | cons q rest ih =>
    obtain ⟨a, b⟩ := q
    have ha : a ≠ k := h (a, b) (by simp)
    simp only [List.cons_append, listErase, if_neg ha, List.append_eq]
    rw [ih fun p hp => h p (by simp [hp])]

theorem listErase_append_left {A B : List (Nat × Nat)} {k : Nat}
    (h : ∀ p ∈ B, p.1 ≠ k) : listErase (A ++ B) k = listErase A k ++ B := by
  induction A with
  | nil => simp [listErase, listErase_not_mem h]
  | cons q rest ih =>
    obtain ⟨a, b⟩ := q
    simp only [List.cons_append, listErase, List.append_eq]
    by_cases ha : a = k
    · simp [if_pos ha]
    · simp only [if_neg ha, List.cons_append]
      rw [ih]

theorem leftmost_delMin {t : BT} (h : t ≠ .leaf) :
    ∃ sp, leftmostKV t = some sp ∧ inorderKV t = sp :: inorderKV (delMin t) := by
  induction t with
  | leaf => exact absurd rfl h
  | node l k v r ihl ihr =>
    cases l with
    | leaf =>
      refine ⟨(k, v), rfl, ?_⟩
      simp [inorderKV, delMin]
    | node a b c d =>
      obtain ⟨sp, h1, h2⟩ := ihl (by simp)
      have h3 : inorderKV a ++ (b, c) :: inorderKV d =
          sp :: inorderKV (delMin (BT.node a b c d)) := h2
      refine ⟨sp, ?_, ?_⟩
      · simp only [leftmostKV]
        exact h1
      · calc inorderKV (BT.node (BT.node a b c d) k v r)
            = (inorderKV a ++ (b, c) :: inorderKV d) ++ (k, v) :: inorderKV r := by
              simp [inorderKV]
          _ = (sp :: inorderKV (delMin (BT.node a b c d))) ++ (k, v) :: inorderKV r := by
              rw [h3]
          _ = sp :: inorderKV (delMin (BT.node (BT.node a b c d) k v r)) := by
              simp [delMin, inorderKV]

theorem delFound_inorder {t : BT} {k : Nat}
    (hs : List.Pairwise (· < ·) (keys t)) :
    inorderKV (delFound t k) = listErase (inorderKV t) k := by
  induction t with
  | leaf => rfl
  | node l k' v' r ihl ihr =>
    rw [pairwise_keys_node] at hs
    obtain ⟨hl, hr, hbl, hbr⟩ := hs
    have hAne : ∀ p ∈ inorderKV l, p.1 ≠ k → True := fun _ _ _ => trivial
    simp only [delFound]
    by_cases h1 : k < k'
    · have hBne : ∀ p ∈ (k', v') :: inorderKV r, p.1 ≠ k := by
        intro p hp
        rcases List.mem_cons.mp hp with rfl | hp
        · simp; omega
        · have := hbr p.1 (mem_keys_of_mem_inorder hp)
          omega
      simp only [if_pos h1, inorderKV]
      rw [ihl hl, listErase_append_left hBne]
    · by_cases h2 : k' < k
      · have hAne2 : ∀ p ∈ inorderKV l ++ [(k', v')], p.1 ≠ k := by
          intro p hp
          rcases List.mem_append.mp hp with hp | hp
          · have := hbl p.1 (mem_keys_of_mem_inorder hp)
            omega
          · simp only [List.mem_singleton] at hp
            subst hp
            simp
            omega
        simp only [if_neg h1, if_pos h2, inorderKV]
        rw [ihr hr]
        have hsplit : inorderKV l ++ (k', v') :: inorderKV r =
            (inorderKV l ++ [(k', v')]) ++ inorderKV r := by simp
        rw [hsplit, listErase_append_right hAne2]
        simp
      · have h0 : k = k' := by omega
        subst h0
        have hAne3 : ∀ p ∈ inorderKV l, p.1 ≠ k := by
          intro p hp
          have := hbl p.1 (mem_keys_of_mem_inorder hp)
          omega
        rw [if_neg h1, if_neg h2]
        cases l with
        | leaf =>
          simp [inorderKV, listErase]
        | node la lb lc ld =>
          cases r with
          | leaf =>
            have hres : inorderKV (BT.node (BT.node la lb lc ld) k v' BT.leaf) =
                inorderKV (BT.node la lb lc ld) ++ [(k, v')] := by simp [inorderKV]
            rw [hres, listErase_append_right hAne3]
            simp [listErase]
          | node ra rb rc rd =>
            obtain ⟨sp, hm1, hm2⟩ := @leftmost_delMin (BT.node ra rb rc rd) (by simp)
            have hres : inorderKV (BT.node (BT.node la lb lc ld) k v' (BT.node ra rb rc rd)) =
                inorderKV (BT.node la lb lc ld) ++
                  (k, v') :: inorderKV (BT.node ra rb rc rd) := rfl
            rw [hres, listErase_append_right hAne3]
            simp only [listErase, if_pos rfl]
            simp only [hm1, inorderKV]
            rw [← hm2]
            simp [inorderKV]

theorem erasePresent_facts {s : TState} {k : Nat} (hInv : Inv s)
    (hmem : k ∈ keys s.root) :
    inorderKV ((erasePresent s k).root) = listErase (inorderKV s.root) k ∧
    (erasePresent s k).tree_size = s.tree_size - 1 := by
  obtain ⟨hs, hsize⟩ := hInv
  have hdel : inorderKV (delFound s.root k) = listErase (inorderKV s.root) k :=
    delFound_inorder hs
  have hlen : (listErase (inorderKV s.root) k).length + 1 = (inorderKV s.root).length :=
    listErase_length hmem
  have hth : (inorderKV (delFound s.root k)).length = s.tree_size - 1 := by
    rw [hdel, hsize, sizeT_eq_length]
    omega
  simp only [erasePresent]
  by_cases hc : 100 * (s.tree_size - 1) < 57 * s.max_size
  · rw [if_pos hc]
    exact ⟨by rw [rebuildWith_inorder hth]; exact hdel, rfl⟩
  · rw [if_neg hc]
    exact ⟨hdel, rfl⟩

theorem eraseKeyS_eq {s : TState} {k : Nat} {p : Nat × Nat}
    (h : findT s.root k = some p) : eraseKeyS s k = some (erasePresent s k) := by
  simp [eraseKeyS, h]

theorem eraseKeyS_of_none {s : TState} {k : Nat}
    (h : findT s.root k = none) : eraseKeyS s k = none := by
  simp [eraseKeyS, h]

theorem eraseKeyS_Inv {s : TState} {k : Nat} {s₂ : TState} (hInv : Inv s)
    (h : eraseKeyS s k = some s₂) : Inv s₂ ∧ findT s₂.root k = none := by
  cases hf : findT s.root k with
  | none => rw [eraseKeyS_of_none hf] at h; cases h
  | some p =>
    rw [eraseKeyS_eq hf] at h
    have hse : erasePresent s k = s₂ := Option.some.inj h
    subst hse
    have hmem : k ∈ keys s.root := findT_some_key_mem hInv.1 hf
    obtain ⟨hio, hts⟩ := erasePresent_facts hInv hmem
    have hsorted : List.Pairwise (· < ·) (keys ((erasePresent s k).root)) := by
      rw [keys_def, hio]
      exact List.Pairwise.sublist (List.Sublist.map Prod.fst (listErase_sublist _ _)) hInv.1
    refine ⟨⟨hsorted, ?_⟩, ?_⟩
    · rw [hts, sizeT_eq_length, hio]
      have := listErase_length hmem
      rw [hInv.2, sizeT_eq_length]
      omega
    · rw [findT_eq_listFind hsorted, hio]
      exact listFind_listErase hInv.1

theorem reachable_inv {s : TState} (h : Reachable s) : Inv s := by
  induction h with
  | init => exact ⟨by simp [emptyS, keys, inorderKV], rfl⟩
  | ins s k v s₂ b hr heq ih =>
    have h2 := @insertS_Inv s k v ih
    rw [heq] at h2
    exact h2
  | del s k s₂ hr heq ih => exact (eraseKeyS_Inv ih heq).1

/-! ### The claims -/

/-- The 15-node perfectly balanced tree reached by inserting
`8,4,12,2,6,10,14,1,3,5,7,9,11,13,15` (no insertion is deep enough to trigger
a rebuild). -/
def c1State : TState :=
  insertKeys emptyS [8, 4, 12, 2, 6, 10, 14, 1, 3, 5, 7, 9, 11, 13, 15]

/-- C1: the claim states that for a node with no right child, `next` returns
the first ancestor (however many levels up) whose key is greater, and null
exactly at the maximum.  The code only climbs two levels of parents
(`Tree.hpp` lines 45-48), so on the reachable 15-node balanced tree the node
holding `7` (whose successor `8` is three levels up) gets `next() = null`
although `7` is not the maximum (`15` is in the tree): iteration ends early.
This contradicts both the specification and the function's own documentation
("Finds the successor of the node"). -/
theorem c1_next_skips_distant_ancestor :
    nextKV c1State.root 7 = none ∧ 7 ∈ keys c1State.root ∧
    15 ∈ keys c1State.root ∧ (7 : Nat) < 15 := by decide

/-- C2: the claim states that erasing an absent key is a no-op.  In the code,
`erase(const Key&)` calls `find` (which reports the key absent by returning
the past-the-end iterator, second conjunct) and passes the result straight to
`erase(const_iterator)`, which dereferences the null node pointer
(`node->left`, Tree.hpp line 833) — undefined behaviour, modelled by `none`,
rather than a no-op returning the unchanged tree. -/
theorem c2_erase_absent_dereferences_null :
    eraseKeyS (insertS emptyS 1 10).1 2 = none ∧
    findT (insertS emptyS 1 10).1.root 2 = none := by decide

/-- The state reached by inserting the scenario keys `5,3,8,1,4,7,9,2,6,0`
into the default-constructed tree (`alpha = 0.57`). -/
def c3State : TState := insertKeys emptyS [5, 3, 8, 1, 4, 7, 9, 2, 6, 0]

/-- C3: inserting `5,3,8,1,4,7,9,2,6,0` into an empty tree with `alpha =
0.57`, iterating from `begin()` to `end()` via `iterator::operator++` visits
exactly `0,…,9` in order, `size()` returns `10`, and `find` succeeds (does
not return the past-the-end position) for each of the ten keys. -/
theorem c3_scenario :
    traversalKeys c3State = [0, 1, 2, 3, 4, 5, 6, 7, 8, 9] ∧
    c3State.tree_size = 10 ∧
    ((List.range 10).all fun k => (findT c3State.root k).isSome) = true := by decide

/-- C4 counterexample: after inserting `1,2,3,4,5,6` in order (a reachable
sequence of inserts, two of which trigger scapegoat rebuilds) the resulting
tree violates the weight-balance bound at the root: its right subtree has
weight `4 > 0.57 * 6`.  So the balance invariant does not hold after every
insert. -/
theorem c4_counterexample :
    balancedAllB (insertKeys emptyS [1, 2, 3, 4, 5, 6]).root = false := by decide

/-- C4 (amended): what the rebuild machinery does guarantee: a tree produced
by `flatten` + `build` — the whole tree after the erase-triggered rebuild,
the scapegoat subtree after an insert-triggered rebuild — satisfies
`weight(left(x)) ≤ alpha * weight(x)` and `weight(right(x)) ≤ alpha *
weight(x)` at every node `x`, for `alpha = 0.57`. -/
theorem c4_rebuild_balanced (n : Nat) (t : BT) (h : n ≤ sizeT t) :
    balancedAllB (rebuildWith n t) = true := by
  unfold rebuildWith
  apply buildAux_balanced n n _ le_rfl
  rw [flattenKV_eq, List.append_nil, ← sizeT_eq_length]
  exact h

/-- Witness for `c4_rebuild_balanced` at a concrete input. -/
def c4WitTree : BT :=
  .node .leaf 1 0 (.node .leaf 2 0 (.node .leaf 3 0 .leaf))

theorem c4_witness :
    3 ≤ sizeT c4WitTree ∧ balancedAllB (rebuildWith 3 c4WitTree) = true :=
  ⟨by decide, c4_rebuild_balanced 3 c4WitTree (by decide)⟩

/-- C5: every state reachable by `insert` / completing `erase` operations from
the empty tree has a strictly increasing in-order key sequence (hence no two
nodes hold equal keys), and inserting a key that is already present leaves
the key multiset unchanged (no node is added) while updating the stored
value. -/
theorem c5_order_invariant (s : TState) (h : Reachable s) :
    List.Pairwise (· < ·) (keys s.root) ∧
    ∀ k v p, findT s.root k = some p →
      keys ((insertS s k v).1.root) = keys s.root ∧
      findT ((insertS s k v).1.root) k = some (k, v) := by
  have hInv := reachable_inv h
  refine ⟨hInv.1, ?_⟩
  intro k v p hf
  have hk : p.1 = k := findT_key hf
  have hf2 : findT s.root k = some (k, p.2) := by rw [hf, ← hk]
  exact ⟨(insertS_dup_general hInv.1 hf2).2.2, insertS_find hInv.1⟩

/-- A small reachable state used to witness `c5_order_invariant`. -/
def c5Wit : TState := (insertS (insertS emptyS 2 7).1 5 3).1

theorem c5_witness :
    List.Pairwise (· < ·) (keys c5Wit.root) ∧
    (keys ((insertS c5Wit 2 9).1.root) = keys c5Wit.root ∧
     findT ((insertS c5Wit 2 9).1.root) 2 = some (2, 9)) := by
  have h1 : Reachable (insertS emptyS 2 7).1 :=
    Reachable.ins emptyS 2 7 (insertS emptyS 2 7).1 (insertS emptyS 2 7).2
      Reachable.init rfl
  have h2 : Reachable c5Wit :=
    Reachable.ins (insertS emptyS 2 7).1 5 3 c5Wit
      (insertS (insertS emptyS 2 7).1 5 3).2 h1 rfl
  exact ⟨(c5_order_invariant c5Wit h2).1,
         (c5_order_invariant c5Wit h2).2 2 9 (2, 7) (by decide)⟩

/-- C6: on a tree whose in-order key sequence is strictly increasing (the
invariant of every reachable state, `c5_order_invariant`), inserting the same
`(key, value)` twice in a row leaves the state of the second call unchanged
and reports `false`; and in general an insert that finds an equal key holding
value `w` reports `true` exactly when `w` differs from the new value, leaves
`tree_size` unchanged and adds no node (the key sequence is unchanged — in
particular no rebalancing reshapes the tree). -/
theorem c6_duplicate_insert (s : TState) (k v : Nat)
    (hs : List.Pairwise (· < ·) (keys s.root)) :
    insertS (insertS s k v).1 k v = ((insertS s k v).1, false) ∧
    ∀ w, findT s.root k = some (k, w) →
      (insertS s k v).2 = !decide (w = v) ∧
      (insertS s k v).1.tree_size = s.tree_size ∧
      keys ((insertS s k v).1.root) = keys s.root := by
  constructor
  · exact insertS_dup_state (insertS_find hs)
  · intro w hf
    exact insertS_dup_general hs hf

/-- A small sorted state used to witness `c6_duplicate_insert`. -/
def c6Wit : TState := (insertS emptyS 3 1).1

theorem c6_witness :
    insertS (insertS c6Wit 5 2).1 5 2 = ((insertS c6Wit 5 2).1, false) :=
  (c6_duplicate_insert c6Wit 5 2 (by decide)).1

/-- C7 counterexample: the round-trip claim quantifies over every tree state
and key, but erasing an absent key does not complete (it dereferences the
past-the-end iterator, see `c2_erase_absent_dereferences_null`), so after
`erase(2)` on the tree holding only key `1` there is no resulting state in
which `find(2)` could return past-the-end. -/
theorem c7_counterexample :
    ¬ ∃ s₂, eraseKeyS (insertS emptyS 1 10).1 2 = some s₂ ∧
        findT s₂.root 2 = none := by
  rintro ⟨s₂, h, -⟩
  have hnone : eraseKeyS (insertS emptyS 1 10).1 2 = none := by decide
  rw [hnone] at h
  cases h

/-- C7 (amended): on any state satisfying the representation invariant (all
reachable states do): after `insert(key, value)`, `find(key)` returns a
position holding exactly that value; and for a key that is present, `erase`
completes and `find(key)` afterwards returns the past-the-end position.  (For
an absent key the erase itself is undefined behaviour, per C2.) -/
theorem c7_round_trip (s : TState) (k v : Nat) (h : Inv s) :
    findT ((insertS s k v).1.root) k = some (k, v) ∧
    ∀ p, findT s.root k = some p →
      ∃ s₂, eraseKeyS s k = some s₂ ∧ findT s₂.root k = none := by
  refine ⟨insertS_find h.1, ?_⟩
  intro p hf
  exact ⟨erasePresent s k, eraseKeyS_eq hf, (eraseKeyS_Inv h (eraseKeyS_eq hf)).2⟩

/-- A small invariant-satisfying state used to witness `c7_round_trip`. -/
def c7Wit : TState := (insertS emptyS 1 10).1

theorem c7_witness :
    findT ((insertS c7Wit 4 9).1.root) 4 = some (4, 9) ∧
    (∃ s₂, eraseKeyS c7Wit 1 = some s₂ ∧ findT s₂.root 1 = none) :=
  ⟨(c7_round_trip c7Wit 4 9 ⟨by decide, by decide⟩).1,
   (c7_round_trip c7Wit 1 0 ⟨by decide, by decide⟩).2 (1, 10) (by decide)⟩

/-- A four-node chain, the smallest subtree shape refuting the stated leaf
depth formula. -/
def c8Chain : BT :=
  .node .leaf 1 1 (.node .leaf 2 2 (.node .leaf 3 3 (.node .leaf 4 4 .leaf)))

/-- C8 counterexample: rebuilding a 4-node subtree places a leaf at depth 1,
but `floor(log2 4) = ceil(log2 4) = 2` (4 is an exact power of two), so "every
leaf at depth `floor(log2 n)` or `ceil(log2 n)`" fails at `n = 4`. -/
theorem c8_counterexample :
    sizeT c8Chain = 4 ∧ 2 ^ 2 = 4 ∧ Nat.log 2 4 = 2 ∧
    1 ∈ leafDepths (rebuildSelf c8Chain) ∧ (1 : Nat) ≠ 2 :=
  ⟨by decide, by decide,
   Nat.log_eq_of_pow_le_of_lt_pow (by norm_num) (by norm_num),
   by decide, by decide⟩

/-- C8 (amended): `flatten` lists the subtree's nodes in ascending key order
with the supplied tail appended; `build` consumes `ceil((n-1)/2)` chain nodes
for the left subtree, one for the root and `floor((n-1)/2)` for the right
(definition `buildAux`); their composition preserves the in-order node
sequence (so a BST input stays a BST over the same `n` nodes); and every leaf
of the rebuilt subtree is at depth `floor(log2 n)` or `floor(log2 n) - 1`
(not `ceil(log2 n)`, as the claim stated). -/
theorem c8_flatten_build (t : BT) :
    (∀ y, flattenKV t y = inorderKV t ++ y) ∧
    inorderKV (rebuildSelf t) = inorderKV t ∧
    ∀ d ∈ leafDepths (rebuildSelf t),
      d = Nat.log 2 (sizeT t) ∨ d + 1 = Nat.log 2 (sizeT t) := by
  refine ⟨flattenKV_eq t, rebuildSelf_inorder t, ?_⟩
  intro d hd
  have hlen : sizeT t ≤ (flattenKV t []).length := by
    rw [flattenKV_eq, List.append_nil, ← sizeT_eq_length]
  have hb := buildAux_leafDepths (sizeT t) (sizeT t) (flattenKV t []) le_rfl hlen d hd
  have hmono : Nat.log 2 (sizeT t) ≤ Nat.log 2 (sizeT t + 1) :=
    Nat.log_mono_right (by omega)
  omega

/-- The 15-node state of `c1State` with all values `0`. -/
def c9A : TState :=
  insertKeys emptyS [8, 4, 12, 2, 6, 10, 14, 1, 3, 5, 7, 9, 11, 13, 15]

/-- The same 15 keys, but key `9` carries value `1` instead of `0`. -/
def c9B : TState :=
  insertPairs emptyS
    [(8, 0), (4, 0), (12, 0), (2, 0), (6, 0), (10, 0), (14, 0), (1, 0),
     (3, 0), (5, 0), (7, 0), (9, 1), (11, 0), (13, 0), (15, 0)]

/-- C9: the claim states `operator==` returns true iff the trees agree in
size and, position by position in in-order, in key, value and parent pair.
The comparison loop iterates with the two-level `next()` (see C1), which on
these 15-node trees stops after key `7`; the value difference at key `9` is
never compared and `operator==` returns `true` although the trees differ at
the in-order position of key `9` — refuting the "only if" direction. -/
theorem c9_equality_misses_value_difference :
    c9A.tree_size = c9B.tree_size ∧ treeEqS c9A c9B = some true ∧
    findT c9A.root 9 = some (9, 0) ∧ findT c9B.root 9 = some (9, 1) := by decide

/-- C10: the copy constructor and copy assignment deep-copy the nodes but
then recompute `first` / `last` by walking `root->left` / `root->right`
unconditionally; the walk dereferences a null `root` exactly when the source
tree is empty — so copying is null-safe precisely for non-empty sources,
and copying an empty tree reaches a null-pointer dereference (`none`). -/
theorem c10_copy_null_deref_iff_empty (s : TState) :
    copyS s = none ↔ s.root = BT.leaf := by
  cases h : s.root with
  | leaf => simp [copyS, copy_helper, h]
  | node l k v r => simp [copyS, copy_helper, h]

end DM852
